import Mathlib

/-!
Verification development for the KodeX-CLI component builder (`cli.js`).

The JavaScript pipeline is shallowly embedded: component records become
structures, the taxonomy / selection / generation functions become pure Lean
functions over lists, filesystem writes become lists of (filename, content)
pairs, and the load step is modelled over an explicit directory value.
-/

namespace KodeX

/-- A component record as consumed by the taxonomy, selection and generation
stages: `title`, `description`, `type`, `content` are the required schema
fields, `group` is optional (`none` = absent/ungrouped). -/
structure Component where
  title : String
  description : String
  type : String
  group : Option String
  content : String
deriving DecidableEq

/-- A selected component: a component spread together with the `_uniqueId`
sequence id assigned by the selection flow (`none` models an item that does
not carry one). -/
structure SelComp where
  comp : Component
  uniqueId : Option Nat
deriving DecidableEq

/-- Decimal digit characters of `n`, most significant first, computed with
explicit fuel; any fuel exceeding `n` is sufficient.  This models the decimal
rendering of a JS number inside a template literal. -/
def decDigits : Nat → Nat → List Char
  | 0, _ => []
  | fuel + 1, n =>
    if n < 10 then [Char.ofNat (n + 48)]
    else decDigits fuel (n / 10) ++ [Char.ofNat (n % 10 + 48)]

/-- Decimal rendering of a natural number, as a string. -/
def decString (n : Nat) : String := ⟨decDigits (n + 1) n⟩

/-- `comp.group || null`: the empty string is falsy in JS, so it collapses to
`none` like an absent group. -/
def effGroup (c : Component) : Option String :=
  match c.group with
  | some g => if g = "" then none else some g
  | none => none

/-- First-occurrence deduplication, as performed by a JS `Set` filled by
iterated insertion and read back in insertion order. -/
def jsDedup {α : Type} [DecidableEq α] : List α → List α
  | [] => []
  | a :: l => a :: (jsDedup l).filter (fun x => decide (x ≠ a))

/-- `getAvailableTypes`: the distinct `type` values, sorted by the default
lexicographic string order. -/
def getAvailableTypes (comps : List Component) : List String :=
  List.insertionSort (· ≤ ·) (jsDedup (comps.map Component.type))

/-- The key string added to the groups set for a grouped component, at the
character level: `type + colon + group`. -/
def groupKeyChars (t g : String) : List Char := t.data ++ ':' :: g.data

/-- JS `String.split` on a single-character separator, at the character
level: `splitFields sep l` is the list of separator-free fields. -/
def splitFields (sep : Char) : List Char → List (List Char)
  | [] => [[]]
  | c :: cs =>
    let r := splitFields sep cs
    if c = sep then [] :: r
    else (c :: r.headD []) :: r.tail

/-- Decoding of a groups-set key back into a pair, as done by
`const [type, group] = groupKey.split(colon)`: the first two fields. -/
def decodeKey (k : List Char) : String × String :=
  (⟨(splitFields ':' k).headD []⟩, ⟨((splitFields ':' k).tail).headD []⟩)

/-- `getAvailableGroups`: keys of grouped components of a selected type are
inserted into a set (dedup, insertion order) and decoded back into pairs. -/
def getAvailableGroups (comps : List Component) (selectedTypes : List String) :
    List (String × String) :=
  let keys := jsDedup ((comps.filter (fun c => selectedTypes.contains c.type)).filterMap
    (fun c => match c.group with
      | some g => if g = "" then none else some (groupKeyChars c.type g)
      | none => none))
  keys.map decodeKey

/-- The group-restriction step of `getComponentsByGroup`: a component is
skipped exactly when a group set was provided, its effective group is truthy,
and no selected pair matches its (type, group). -/
def passesGroupFilter (selectedGroups : Option (List (String × String)))
    (c : Component) : Bool :=
  match selectedGroups, effGroup c with
  | some gs, some g => gs.any (fun p => p.1 == c.type && p.2 == g)
  | _, _ => true

/-- The object key under which a component is pushed inside its type:
its effective group, or the ungrouped sentinel. -/
def bucketKey (c : Component) : String :=
  match effGroup c with
  | some g => g
  | none => "_ungrouped"

/-- The ordered list of components that `getComponentsByGroup` pushes into
the bucket `structure[t][gk]`. -/
def getComponentsByGroup (comps : List Component) (selectedTypes : List String)
    (selectedGroups : Option (List (String × String))) (t gk : String) : List Component :=
  ((comps.filter (fun c => selectedTypes.contains c.type)).filter
    (passesGroupFilter selectedGroups)).filter
    (fun c => c.type == t && bucketKey c == gk)

/-- One confirmed entry of the step-3 selection, already resolved through
`groupMap` / `componentMap`: a group-level choice carrying its bucket, or an
individual component choice. -/
inductive SelItem where
  | group (comps : List Component)
  | single (c : Component)
deriving DecidableEq

/-- The components an item expands to during finalization. -/
def expandItem : SelItem → List Component
  | .group cs => cs
  | .single c => [c]

/-- The inner loop pushing every component of a group bucket, tagging each
with `componentIndex++`; returns the pushed entries and the updated
counter. -/
def pushAll (cs : List Component) (idx : Nat) : List SelComp × Nat :=
  match cs with
  | [] => ([], idx)
  | c :: rest =>
    let r := pushAll rest (idx + 1)
    (⟨c, some idx⟩ :: r.1, r.2)

/-- The `selectedItems.forEach` loop with the running `componentIndex`. -/
def finalizeAux (items : List SelItem) (idx : Nat) : List SelComp :=
  match items with
  | [] => []
  | it :: rest =>
    let p := pushAll (expandItem it) idx
    p.1 ++ finalizeAux rest p.2

/-- Finalization of a confirmed selection: groups and singles expand in
order, `_uniqueId` counts up from 0. -/
def finalizeSelection (items : List SelItem) : List SelComp := finalizeAux items 0

/-- Membership of a character in the ASCII alphanumeric class
`[a-zA-Z0-9]`. -/
def isAsciiAlnum (c : Char) : Bool :=
  (('a' ≤ c) && (c ≤ 'z')) || (('A' ≤ c) && (c ≤ 'Z')) || (('0' ≤ c) && (c ≤ '9'))

/-- ASCII lowercasing of one character (JS `toLowerCase` on the character
range the pipeline produces). -/
def jsLower (c : Char) : Char :=
  if ('A' ≤ c) && (c ≤ 'Z') then Char.ofNat (c.toNat + 32) else c

/-- `title.replace` with the global pattern matching one character outside
`[a-zA-Z0-9]`, replacement a hyphen. -/
def replaceNonAlnum (t : String) : String :=
  ⟨t.data.map (fun c => if isAsciiAlnum c then c else '-')⟩

/-- `.toLowerCase()` over a whole string. -/
def lowerString (s : String) : String := ⟨s.data.map jsLower⟩

/-- The JS whitespace class matched by a backslash-s in the source
regexes. -/
def jsWs (c : Char) : Bool :=
  c.toNat ∈ ([9, 10, 11, 12, 13, 32, 160, 0x1680, 0x2028, 0x2029, 0x202f,
    0x205f, 0x3000, 0xfeff] : List Nat)
  || (0x2000 ≤ c.toNat && c.toNat ≤ 0x200a)

/-- Replace every maximal run of characters satisfying `p` by the single
character `r`; the Boolean flag records whether the previous character was
part of a run. -/
def collapseRuns (p : Char → Bool) (r : Char) : Bool → List Char → List Char
  | _, [] => []
  | inRun, c :: cs =>
    if p c then
      if inRun then collapseRuns p r true cs
      else r :: collapseRuns p r true cs
    else c :: collapseRuns p r false cs

/-- `generateFileName`: lowercase, strip characters outside lowercase
alphanumerics / whitespace / hyphen, turn whitespace runs into one hyphen,
collapse hyphen runs.  The source ends with `.trim` (whose hyphen argument JS
ignores); it only strips whitespace, of which none remains, so it is the
identity here. -/
def generateFileName (title ty : String) : String :=
  let lowered := (lowerString title).data
  let stripped := lowered.filter (fun c =>
    (('a' ≤ c) && (c ≤ 'z')) || (('0' ≤ c) && (c ≤ '9')) || jsWs c || (c == '-'))
  let dashed := collapseRuns jsWs '-' false stripped
  let collapsed := collapseRuns (fun c => c == '-') '-' false dashed
  ⟨collapsed⟩ ++ "." ++ ty

/-- The filename derived in `generateSeparateFiles`: when `_uniqueId` is
defined, the replace-then-lowercase sanitisation with the id suffix,
otherwise `generateFileName`. -/
def separateFileName (c : SelComp) : String :=
  match c.uniqueId with
  | some i =>
    lowerString (replaceNonAlnum c.comp.title) ++ "-" ++ decString i ++ "." ++ c.comp.type
  | none => generateFileName c.comp.title c.comp.type

/-- `generateSeparateFiles` as its ordered list of (filename, content)
writes. -/
def generateSeparateFiles (comps : List SelComp) : List (String × String) :=
  comps.map (fun c => (separateFileName c, c.comp.content))

/-- Insertion of one component into the `typeGroups` object; JS object keys
keep first-insertion order. -/
def addToTypeGroups (gs : List (String × List SelComp)) (c : SelComp) :
    List (String × List SelComp) :=
  if gs.any (fun g => g.1 == c.comp.type) then
    gs.map (fun g => if g.1 == c.comp.type then (g.1, g.2 ++ [c]) else g)
  else gs ++ [(c.comp.type, [c])]

/-- Grouping of the selection by type, in first-occurrence order. -/
def typeGroups (comps : List SelComp) : List (String × List SelComp) :=
  comps.foldl addToTypeGroups []

/-- The chunk a component contributes to its bundle file: the comment header
line followed by the raw content. -/
def bundleChunk (c : SelComp) : String :=
  "/* " ++ c.comp.title ++ " - " ++ c.comp.description ++ " " ++
    (match c.uniqueId with
     | some i => "(ID: " ++ decString i ++ ")"
     | none => "") ++ " */\n" ++ c.comp.content

/-- `generateBundledFiles` as its ordered list of (filename, content)
writes: one `bundle.<type>` file per type, chunks joined by a blank line. -/
def generateBundledFiles (comps : List SelComp) : List (String × String) :=
  (typeGroups comps).map
    (fun tg => ("bundle." ++ tg.1, String.intercalate "\n\n" (tg.2.map bundleChunk)))

/-- The final filesystem contents after a list of writes is applied in
order: the last write to a name wins. -/
def applyWrites (ws : List (String × String)) (name : String) : Option String :=
  ws.foldl (fun acc w => if w.1 = name then some w.2 else acc) none

/-- The JSON value of one component file with every schema field optional:
`JSON.parse` performs no schema validation, so any field may be absent. -/
structure RawComponent where
  title : Option String
  description : Option String
  type : Option String
  group : Option String
  content : Option String
deriving DecidableEq

/-- A loaded component: the parsed record spread together with its
originating filename. -/
structure LoadedComponent where
  raw : RawComponent
  filename : String
deriving DecidableEq

/-- One file of the components directory: its name and the result of
`JSON.parse` on its contents (`none` = the parse throws). -/
structure DirFile where
  name : String
  parsed : Option RawComponent
deriving DecidableEq

/-- The `files.map` body of `loadComponents`: throws (returns `none`) as
soon as any file fails to parse, otherwise tags every record with its
filename. -/
def parseAll : List DirFile → Option (List LoadedComponent)
  | [] => some []
  | f :: rest =>
    match f.parsed with
    | none => none
    | some r => (parseAll rest).map (fun l => ⟨r, f.name⟩ :: l)

/-- JS `String.endsWith`, at the character level. -/
def strEndsWith (s suf : String) : Bool := suf.data.isSuffixOf s.data

/-- `loadComponents` over a model directory (`none` = directory absent).
Returns the success flag together with the store's component list after the
call; the list starts empty and is only assigned when every file parses. -/
def loadComponents (dir : Option (List DirFile)) : Bool × List LoadedComponent :=
  match dir with
  | none => (false, [])
  | some files =>
    if (files.filter (fun f => strEndsWith f.name ".json")).length = 0 then (false, [])
    else
      match parseAll (files.filter (fun f => strEndsWith f.name ".json")) with
      | none => (false, [])
      | some comps => (true, comps)

/-- Modelled from the spec: the slug described for separate mode — lowercase,
strip characters outside lowercase alphanumerics / whitespace / hyphen,
collapse whitespace runs to a single hyphen, collapse repeated hyphens, and
trim leading and trailing hyphens. -/
def specSlug (t : String) : String :=
  let lowered := (lowerString t).data
  let stripped := lowered.filter (fun c =>
    (('a' ≤ c) && (c ≤ 'z')) || (('0' ≤ c) && (c ≤ '9')) || jsWs c || (c == '-'))
  let dashed := collapseRuns jsWs '-' false stripped
  let collapsed := collapseRuns (fun c => c == '-') '-' false dashed
  let trimmed := ((collapsed.dropWhile (fun c => c == '-')).reverse.dropWhile
    (fun c => c == '-')).reverse
  ⟨trimmed⟩

/-- The sanitisation separate mode actually applies to a title when the item
carries a sequence id, written as one character map: a character outside the
ASCII alphanumerics becomes a hyphen, uppercase letters are lowercased,
everything else is kept; runs are not collapsed and nothing is trimmed. -/
def amendedSlug (t : String) : String :=
  ⟨t.data.map (fun c =>
    if ('A' ≤ c) && (c ≤ 'Z') then Char.ofNat (c.toNat + 32)
    else if (('a' ≤ c) && (c ≤ 'z')) || (('0' ≤ c) && (c ≤ '9')) then c
    else '-')⟩

/-- Decoding of a decimal character list back into a number (used to invert
`decDigits`). -/
def decodeDec (l : List Char) : Nat :=
  l.foldl (fun acc c => acc * 10 + (c.toNat - 48)) 0

/-- The positions (starting at offset `k`) at which component `m` occurs in a
list — the sequence ids finalization hands to the occurrences of `m`. -/
def idsOf (m : Component) : Nat → List Component → List Nat
  | _, [] => []
  | k, c :: rest => if c = m then k :: idsOf m (k + 1) rest else idsOf m (k + 1) rest

/-- A sample grouped component used to instantiate theorems. -/
def demoM : Component := ⟨"m", "dm", "css", some "g", "cm"⟩

/-- A second sample component in the same group as `demoM`. -/
def demoN : Component := ⟨"n", "dn", "css", some "g", "cn"⟩

/-- The entry at position `i` of a finalized selection. -/
def selEntry (items : List SelItem) (i : Nat)
    (h : i < (finalizeSelection items).length) : SelComp :=
  (finalizeSelection items).get ⟨i, h⟩

/-- C3: bundling a selection of exactly two css components titled "A" and
"B" (descriptions "da"/"db", contents "x"/"y", sequence ids 0 and 1) writes
exactly one file, `bundle.css`, with the exact expected concatenation. -/
theorem generateBundledFiles_two_css :
    generateBundledFiles
      [⟨⟨"A", "da", "css", none, "x"⟩, some 0⟩, ⟨⟨"B", "db", "css", none, "y"⟩, some 1⟩] =
      [("bundle.css", "/* A - da (ID: 0) */\nx\n\n/* B - db (ID: 1) */\ny")] := by
  decide

/-- C1: a component whose `group` is `null` is never excluded by the
group-restriction step of `getComponentsByGroup`: for every non-null
selected-groups set it lands in the ungrouped bucket of its type. -/
theorem nullGroup_in_ungrouped_bucket (comps : List Component)
    (selectedTypes : List String) (gs : List (String × String)) (c : Component)
    (hc : c ∈ comps) (hg : c.group = none)
    (ht : c.type ∈ selectedTypes) :
    c ∈ getComponentsByGroup comps selectedTypes (some gs) c.type "_ungrouped" := by
  simp [getComponentsByGroup, List.mem_filter, passesGroupFilter, effGroup,
    bucketKey, hg, hc, ht]

/-- C1 witness: a null-group css component survives a group restriction that
names no pair for css at all. -/
theorem nullGroup_in_ungrouped_bucket_witness :
    (⟨"T", "d", "css", none, "x"⟩ : Component) ∈
      getComponentsByGroup [⟨"T", "d", "css", none, "x"⟩] ["css"]
        (some [("html", "g")]) "css" "_ungrouped" :=
  nullGroup_in_ungrouped_bucket _ _ _ _ (by decide) rfl (by decide)

/-- C10: a component whose `group` is the empty string is treated like an
ungrouped one by both taxonomy operations: it contributes no pair to
`getAvailableGroups`, and `getComponentsByGroup` always places it in the
ungrouped bucket of its type, whatever non-null group set is selected. -/
theorem emptyGroup_like_null (l₁ l₂ : List Component) (selectedTypes : List String)
    (gs : List (String × String)) (c : Component) (hg : c.group = some "")
    (ht : c.type ∈ selectedTypes) :
    getAvailableGroups (l₁ ++ c :: l₂) selectedTypes =
      getAvailableGroups (l₁ ++ l₂) selectedTypes ∧
    c ∈ getComponentsByGroup (l₁ ++ c :: l₂) selectedTypes (some gs) c.type
      "_ungrouped" := by
  constructor
  · by_cases hp : c.type ∈ selectedTypes
    · simp [getAvailableGroups, List.filter_append, List.filter_cons,
        List.filterMap_append, hp, hg]
    · simp [getAvailableGroups, List.filter_append, List.filter_cons,
        List.filterMap_append, hp, hg]
  · simp [getComponentsByGroup, List.mem_filter, passesGroupFilter, effGroup,
      bucketKey, hg, ht]

/-- C10 witness: a css component with `group = ""` adds no pair to the group
set and stays in the ungrouped bucket under a restriction naming no css
pair. -/
theorem emptyGroup_like_null_witness :
    getAvailableGroups ([] ++ (⟨"T", "d", "css", some "", "x"⟩ : Component) :: [])
        ["css"] = getAvailableGroups ([] ++ []) ["css"] ∧
    (⟨"T", "d", "css", some "", "x"⟩ : Component) ∈
      getComponentsByGroup ([] ++ (⟨"T", "d", "css", some "", "x"⟩ : Component) :: [])
        ["css"] (some [("html", "g")]) "css" "_ungrouped" :=
  emptyGroup_like_null [] [] ["css"] [("html", "g")] _ rfl (by decide)

/-- If some listed file fails to parse, the whole `files.map` throws. -/
theorem parseAll_eq_none {files : List DirFile} {f : DirFile}
    (hf : f ∈ files) (hp : f.parsed = none) : parseAll files = none := by
  induction files with
  | nil => cases hf
  | cons g rest ih =>
    rcases List.mem_cons.mp hf with h | h
    · subst h
      simp [parseAll, hp]
    · cases hg : g.parsed with
      | none => simp [parseAll, hg]
      | some r => simp [parseAll, hg, ih h]

/-- C5: load is atomic over parse failures — when any `.json` file of the
directory fails to parse, `loadComponents` reports failure and the store's
component list is left empty. -/
theorem loadComponents_atomic (files : List DirFile) (f : DirFile)
    (hf : f ∈ files) (hjson : strEndsWith f.name ".json" = true)
    (hp : f.parsed = none) :
    loadComponents (some files) = (false, []) := by
  have hmem : f ∈ files.filter (fun g => strEndsWith g.name ".json") :=
    List.mem_filter.mpr ⟨hf, hjson⟩
  have hnone := parseAll_eq_none hmem hp
  unfold loadComponents
  by_cases hlen : (files.filter (fun g => strEndsWith g.name ".json")).length = 0
  · simp [hlen]
  · simp [hlen, hnone]

/-- C5 witness: a two-file directory whose second file throws on parse loads
nothing. -/
theorem loadComponents_atomic_witness :
    loadComponents (some [⟨"ok.json", some ⟨some "t", some "d", some "css", none, some "c"⟩⟩,
      ⟨"bad.json", none⟩]) = (false, []) :=
  loadComponents_atomic _ ⟨"bad.json", none⟩ (by decide) (by decide) rfl

/-- C4 counterexample: a directory whose single file parses as JSON but has
no `type` field (nor any other schema field) loads successfully — the flag is
true and the record is returned with `type = none`, so load does not fail
with a parse error on a missing required field. -/
theorem loadComponents_no_validation_counterexample :
    loadComponents (some [⟨"a.json", some ⟨none, none, none, none, none⟩⟩]) =
      (true, [⟨⟨none, none, none, none, none⟩, "a.json"⟩]) ∧
    (⟨⟨none, none, none, none, none⟩, "a.json"⟩ : LoadedComponent).raw.type = none := by
  constructor
  · rfl
  · rfl

/-- When parsing succeeds for the whole list, every listed file's record is
returned, tagged with its filename, whatever fields it lacks. -/
theorem parseAll_mem {files : List DirFile} {l : List LoadedComponent}
    (h : parseAll files = some l) {f : DirFile} {r : RawComponent}
    (hf : f ∈ files) (hr : f.parsed = some r) :
    (⟨r, f.name⟩ : LoadedComponent) ∈ l := by
  induction files generalizing l with
  | nil => cases hf
  | cons g rest ih =>
    cases hg : g.parsed with
    | none => simp [parseAll, hg] at h
    | some r₂ =>
      simp only [parseAll, hg] at h
      cases hrest : parseAll rest with
      | none => simp [hrest] at h
      | some l₂ =>
        rw [hrest, Option.map_some'] at h
        cases h
        rcases List.mem_cons.mp hf with hfg | hfr
        · subst hfg
          rw [hg] at hr
          cases hr
          exact List.mem_cons_self _ _
        · exact List.mem_cons_of_mem _ (ih hrest hfr)

/-- If every listed file parses, the whole `files.map` succeeds. -/
theorem parseAll_total {files : List DirFile}
    (h : ∀ f ∈ files, f.parsed ≠ none) : ∃ l, parseAll files = some l := by
  induction files with
  | nil => exact ⟨[], rfl⟩
  | cons g rest ih =>
    obtain ⟨l, hl⟩ := ih (fun f hf => h f (List.mem_cons_of_mem _ hf))
    cases hg : g.parsed with
    | none => exact absurd hg (h g (List.mem_cons_self _ _))
    | some r => exact ⟨⟨r, g.name⟩ :: l, by simp [parseAll, hg, hl]⟩

/-- C4 amended: load performs no schema validation — whenever every matching
file of the directory parses as JSON, `loadComponents` succeeds and each
parsed record is returned as a component exactly as parsed, even when its
`type` field is missing or empty. -/
theorem loadComponents_no_validation (files : List DirFile) (f : DirFile)
    (r : RawComponent) (hf : f ∈ files) (hjson : strEndsWith f.name ".json" = true)
    (hr : f.parsed = some r)
    (hall : ∀ g ∈ files, strEndsWith g.name ".json" = true → g.parsed ≠ none) :
    (loadComponents (some files)).1 = true ∧
    (⟨r, f.name⟩ : LoadedComponent) ∈ (loadComponents (some files)).2 := by
  have hmem : f ∈ files.filter (fun g => strEndsWith g.name ".json") :=
    List.mem_filter.mpr ⟨hf, hjson⟩
  obtain ⟨l, hl⟩ := parseAll_total
    (fun g hg => hall g (List.mem_filter.mp hg).1 (List.mem_filter.mp hg).2)
  have hlen : ¬(files.filter (fun g => strEndsWith g.name ".json")).length = 0 := by
    intro h0
    rw [List.length_eq_zero] at h0
    rw [h0] at hmem
    cases hmem
  simp only [loadComponents]
  rw [if_neg hlen, hl]
  exact ⟨rfl, parseAll_mem hl hmem hr⟩

/-- C4 amended witness: a file lacking every schema field still loads, and
its record is among the loaded components. -/
theorem loadComponents_no_validation_witness :
    (loadComponents (some [⟨"a.json", some ⟨none, none, none, none, none⟩⟩])).1 = true ∧
    (⟨⟨none, none, none, none, none⟩, "a.json"⟩ : LoadedComponent) ∈
      (loadComponents (some [⟨"a.json", some ⟨none, none, none, none, none⟩⟩])).2 :=
  loadComponents_no_validation [⟨"a.json", some ⟨none, none, none, none, none⟩⟩]
    ⟨"a.json", some ⟨none, none, none, none, none⟩⟩ ⟨none, none, none, none, none⟩
    (by decide) (by decide) rfl
    (by
      intro g hg _
      cases List.mem_singleton.mp hg
      simp)

/-- Reading a JS set back in insertion order yields the same members the
inserted list had. -/
theorem jsDedup_mem {α : Type} [DecidableEq α] (l : List α) (a : α) :
    a ∈ jsDedup l ↔ a ∈ l := by
  induction l with
  | nil => simp [jsDedup]
  | cons b l ih =>
    by_cases hab : a = b
    · simp [jsDedup, hab]
    · simp [jsDedup, List.mem_filter, hab, ih]

/-- A JS set read back in insertion order has no duplicates. -/
theorem jsDedup_nodup {α : Type} [DecidableEq α] (l : List α) :
    (jsDedup l).Nodup := by
  induction l with
  | nil => simp [jsDedup]
  | cons b l ih =>
    rw [jsDedup, List.nodup_cons]
    refine ⟨fun hmem => ?_, ih.filter _⟩
    have := (List.mem_filter.mp hmem).2
    simp at this

/-- Helper: two lists with the same members, both without duplicates, sort to
the same list. -/
theorem insertionSort_eq_of_same_mem {l l' : List String}
    (hn : l.Nodup) (hn' : l'.Nodup) (hm : ∀ a, a ∈ l ↔ a ∈ l') :
    List.insertionSort (· ≤ ·) l = List.insertionSort (· ≤ ·) l' := by
  have hperm : l.Perm l' := by
    rw [List.perm_iff_count]
    intro a
    by_cases ha : a ∈ l
    · rw [List.count_eq_one_of_mem hn ha,
        List.count_eq_one_of_mem hn' ((hm a).mp ha)]
    · rw [List.count_eq_zero_of_not_mem ha,
        List.count_eq_zero_of_not_mem (fun h => ha ((hm a).mpr h))]
  exact List.eq_of_perm_of_sorted
    (((List.perm_insertionSort _ l).trans hperm).trans
      (List.perm_insertionSort _ l').symm)
    (List.sorted_insertionSort _ l) (List.sorted_insertionSort _ l')

/-- C9: `getAvailableTypes` returns exactly the distinct `type` values of
its input — its members are precisely the types occurring in the components —
sorted ascending, duplicate-free, and it depends only on the multiset of
`type` values of its input. -/
theorem availableTypes_sorted_dedup_stable (comps comps' : List Component)
    (h : (comps.map Component.type).Perm (comps'.map Component.type)) :
    (getAvailableTypes comps).Sorted (· ≤ ·) ∧
    (getAvailableTypes comps).Nodup ∧
    (∀ t, t ∈ getAvailableTypes comps ↔ ∃ c ∈ comps, c.type = t) ∧
    getAvailableTypes comps = getAvailableTypes comps' := by
  refine ⟨List.sorted_insertionSort _ _, ?_, ?_, ?_⟩
  · exact (List.perm_insertionSort _ _).nodup_iff.mpr
      (jsDedup_nodup (comps.map Component.type))
  · intro t
    rw [getAvailableTypes, List.mem_insertionSort, jsDedup_mem]
    exact List.mem_map
  · exact insertionSort_eq_of_same_mem (jsDedup_nodup _) (jsDedup_nodup _)
      (fun a => by rw [jsDedup_mem, jsDedup_mem, h.mem_iff])

/-- C9 witness: two reorderings with the same type multiset produce the same
sorted, duplicate-free type list, whose members are exactly the occurring
types. -/
theorem availableTypes_sorted_dedup_stable_witness :
    (getAvailableTypes [⟨"a", "d", "css", none, "x"⟩, ⟨"b", "d", "html", none, "y"⟩,
        ⟨"c", "d", "css", none, "z"⟩]).Sorted (· ≤ ·) ∧
    (getAvailableTypes [⟨"a", "d", "css", none, "x"⟩, ⟨"b", "d", "html", none, "y"⟩,
        ⟨"c", "d", "css", none, "z"⟩]).Nodup ∧
    (∀ t, t ∈ getAvailableTypes [⟨"a", "d", "css", none, "x"⟩,
        ⟨"b", "d", "html", none, "y"⟩, ⟨"c", "d", "css", none, "z"⟩] ↔
      ∃ c ∈ [(⟨"a", "d", "css", none, "x"⟩ : Component),
        ⟨"b", "d", "html", none, "y"⟩, ⟨"c", "d", "css", none, "z"⟩], c.type = t) ∧
    getAvailableTypes [⟨"a", "d", "css", none, "x"⟩, ⟨"b", "d", "html", none, "y"⟩,
        ⟨"c", "d", "css", none, "z"⟩] =
      getAvailableTypes [⟨"c", "d", "css", none, "z"⟩, ⟨"a", "d", "css", none, "x"⟩,
        ⟨"b", "d", "html", none, "y"⟩] :=
  availableTypes_sorted_dedup_stable _ _ (by decide)

/-- C2 counterexample: for the title "a!" with sequence id 0 and type "t",
separate mode derives "a--0.t" — the exclamation mark is replaced by a
hyphen, not stripped — while the slug described by the spec would derive
"a-0.t". -/
theorem separateFileName_not_specSlug :
    separateFileName ⟨⟨"a!", "d", "t", none, "c"⟩, some 0⟩ = "a--0.t" ∧
    specSlug "a!" ++ "-" ++ decString 0 ++ "." ++ "t" = "a-0.t" ∧
    ("a--0.t" : String) ≠ "a-0.t" := by
  refine ⟨rfl, rfl, by decide⟩

/-- The replace-then-lowercase sanitisation equals its one-pass
description. -/
theorem lowerString_replaceNonAlnum_eq_amendedSlug (t : String) :
    lowerString (replaceNonAlnum t) = amendedSlug t := by
  unfold lowerString replaceNonAlnum amendedSlug
  apply congrArg String.mk
  rw [List.map_map]
  apply List.map_congr_left
  intro c _
  simp only [Function.comp]
  by_cases h1 : (('A' ≤ c) && (c ≤ 'Z')) = true
  · have halnum : isAsciiAlnum c = true := by
      simp [isAsciiAlnum, h1]
    simp [halnum, jsLower, h1]
  · by_cases h2 : ((('a' ≤ c) && (c ≤ 'z')) || (('0' ≤ c) && (c ≤ '9'))) = true
    · have halnum : isAsciiAlnum c = true := by
        rcases Bool.or_eq_true_iff.mp h2 with h | h
        · simp [isAsciiAlnum, h]
        · simp [isAsciiAlnum, h]
      simp [halnum, jsLower, h1, h2]
    · rw [Bool.or_eq_true_iff] at h2
      push_neg at h2
      have halnum : isAsciiAlnum c = false := by
        simp [isAsciiAlnum, h1, h2.1, h2.2]
      rw [halnum]
      have hdash : jsLower '-' = '-' := by decide
      simp [h1, h2.1, h2.2, hdash]

/-- C2 amended: for an item carrying a sequence id, separate mode derives
the filename `amendedSlug(title)-id.type`, where the sanitisation replaces
every character outside the ASCII alphanumerics by a hyphen and lowercases,
with no run collapsing and no trimming. -/
theorem separateFileName_amended (c : SelComp) (i : Nat)
    (h : c.uniqueId = some i) :
    separateFileName c =
      amendedSlug c.comp.title ++ "-" ++ decString i ++ "." ++ c.comp.type := by
  rw [separateFileName, h, lowerString_replaceNonAlnum_eq_amendedSlug]

/-- C2 amended witness: the title "A  B!" with id 3 and type "css" yields
"a--b--3.css". -/
theorem separateFileName_amended_witness :
    separateFileName ⟨⟨"A  B!", "d", "css", none, "c"⟩, some 3⟩ =
      amendedSlug "A  B!" ++ "-" ++ decString 3 ++ "." ++ "css" :=
  separateFileName_amended ⟨⟨"A  B!", "d", "css", none, "c"⟩, some 3⟩ 3 rfl

/-- Splitting a separator-free character list yields that single field. -/
theorem splitFields_no_sep (sep : Char) (l : List Char) (h : sep ∉ l) :
    splitFields sep l = [l] := by
  induction l with
  | nil => rfl
  | cons c cs ih =>
    have hc : ¬c = sep := fun he => h (he ▸ List.mem_cons_self _ _)
    have hcs : sep ∉ cs := fun hm => h (List.mem_cons_of_mem _ hm)
    simp [splitFields, hc, ih hcs]

/-- Splitting a list that starts with a separator-free field peels that field
off. -/
theorem splitFields_append (sep : Char) (a b : List Char) (h : sep ∉ a) :
    splitFields sep (a ++ sep :: b) = a :: splitFields sep b := by
  induction a with
  | nil => simp [splitFields]
  | cons c cs ih =>
    have hc : ¬c = sep := fun he => h (he ▸ List.mem_cons_self _ _)
    have hcs : sep ∉ cs := fun hm => h (List.mem_cons_of_mem _ hm)
    simp [splitFields, hc, ih hcs]

/-- When neither side contains a colon, decoding a groups-set key restores
the encoded pair. -/
theorem decodeKey_groupKeyChars (t g : String) (ht : ':' ∉ t.data)
    (hg : ':' ∉ g.data) : decodeKey (groupKeyChars t g) = (t, g) := by
  unfold decodeKey groupKeyChars
  rw [splitFields_append _ _ _ ht, splitFields_no_sep _ _ hg]
  rfl

/-- C6 counterexample: a component whose group contains a colon has its pair
silently truncated at the first colon — `("t", "g:h")` is not returned,
`("t", "g")` is — and a component whose group is the empty string contributes
no pair at all. -/
theorem availableGroups_counterexample :
    getAvailableGroups [⟨"x", "d", "t", some "g:h", "c"⟩] ["t"] = [("t", "g")] ∧
    ("t", "g:h") ∉ getAvailableGroups [⟨"x", "d", "t", some "g:h", "c"⟩] ["t"] ∧
    getAvailableGroups [⟨"y", "d", "t", some "", "c"⟩] ["t"] = [] := by
  refine ⟨rfl, by decide, rfl⟩

/-- Characterisation of the keys produced by the groups-set construction. -/
theorem availableGroups_key_shape (comps : List Component)
    (selectedTypes : List String) (k : List Char)
    (hk : k ∈ (comps.filter (fun c => selectedTypes.contains c.type)).filterMap
      (fun c => match c.group with
        | some g => if g = "" then none else some (groupKeyChars c.type g)
        | none => none)) :
    ∃ c ∈ comps, c.type ∈ selectedTypes ∧
      ∃ g, c.group = some g ∧ g ≠ "" ∧ k = groupKeyChars c.type g := by
  obtain ⟨c, hc, hfc⟩ := List.mem_filterMap.mp hk
  obtain ⟨hcm, hpred⟩ := List.mem_filter.mp hc
  refine ⟨c, hcm, by simpa using hpred, ?_⟩
  cases hgr : c.group with
  | none => rw [hgr] at hfc; cases hfc
  | some g =>
    rw [hgr] at hfc
    dsimp only at hfc
    by_cases hge : g = ""
    · rw [if_pos hge] at hfc; cases hfc
    · rw [if_neg hge] at hfc
      exact ⟨g, rfl, hge, (Option.some.injEq _ _ ▸ hfc).symm⟩

/-- C6 amended: when no selected component's type or group contains a colon,
`getAvailableGroups` returns exactly the deduplicated pairs (type, group) of
the components whose type is selected and whose group is non-null and
non-empty — nothing missing, altered or merged. -/
theorem availableGroups_exact (comps : List Component) (selectedTypes : List String)
    (hcol : ∀ c ∈ comps, ':' ∉ c.type.data ∧ ∀ g, c.group = some g → ':' ∉ g.data) :
    (getAvailableGroups comps selectedTypes).Nodup ∧
    ∀ p : String × String,
      p ∈ getAvailableGroups comps selectedTypes ↔
        ∃ c ∈ comps, c.type ∈ selectedTypes ∧ c.type = p.1 ∧
          c.group = some p.2 ∧ p.2 ≠ "" := by
  constructor
  · apply List.Nodup.map_on
    · intro k1 hk1 k2 hk2 hdec
      rw [jsDedup_mem] at hk1 hk2
      obtain ⟨c1, hc1, -, g1, hg1, -, hk1e⟩ :=
        availableGroups_key_shape comps selectedTypes k1 hk1
      obtain ⟨c2, hc2, -, g2, hg2, -, hk2e⟩ :=
        availableGroups_key_shape comps selectedTypes k2 hk2
      have hd1 : decodeKey k1 = (c1.type, g1) := by
        rw [hk1e]
        exact decodeKey_groupKeyChars _ _ (hcol c1 hc1).1 ((hcol c1 hc1).2 g1 hg1)
      have hd2 : decodeKey k2 = (c2.type, g2) := by
        rw [hk2e]
        exact decodeKey_groupKeyChars _ _ (hcol c2 hc2).1 ((hcol c2 hc2).2 g2 hg2)
      rw [hd1, hd2, Prod.mk.injEq] at hdec
      rw [hk1e, hk2e, hdec.1, hdec.2]
    · exact jsDedup_nodup _
  · intro p
    constructor
    · intro hp
      obtain ⟨k, hk, hdk⟩ := List.mem_map.mp hp
      rw [jsDedup_mem] at hk
      obtain ⟨c, hc, hsel, g, hg, hge, hke⟩ :=
        availableGroups_key_shape comps selectedTypes k hk
      have hd : decodeKey k = (c.type, g) := by
        rw [hke]
        exact decodeKey_groupKeyChars _ _ (hcol c hc).1 ((hcol c hc).2 g hg)
      rw [hd] at hdk
      exact ⟨c, hc, hsel, congrArg Prod.fst hdk, hdk ▸ hg, hdk ▸ hge⟩
    · rintro ⟨c, hc, hsel, hty, hgr, hge⟩
      apply List.mem_map.mpr
      refine ⟨groupKeyChars c.type p.2, ?_, ?_⟩
      · rw [jsDedup_mem]
        apply List.mem_filterMap.mpr
        refine ⟨c, List.mem_filter.mpr ⟨hc, by simpa using hsel⟩, ?_⟩
        rw [hgr]
        dsimp only
        rw [if_neg hge]
      · rw [decodeKey_groupKeyChars _ _ (hcol c hc).1 ((hcol c hc).2 p.2 hgr), hty]

/-- C6 amended witness: two same-group components of a selected type produce
the deduplicated pair set {("css", "g")}. -/
theorem availableGroups_exact_witness :
    (getAvailableGroups [demoM, demoN] ["css"]).Nodup ∧
    ∀ p : String × String,
      p ∈ getAvailableGroups [demoM, demoN] ["css"] ↔
        ∃ c ∈ [demoM, demoN], c.type ∈ ["css"] ∧ c.type = p.1 ∧
          c.group = some p.2 ∧ p.2 ≠ "" :=
  availableGroups_exact [demoM, demoN] ["css"] (by decide)

/-- The counter after the bucket loop has advanced by the bucket length. -/
theorem pushAll_snd (cs : List Component) (k : Nat) :
    (pushAll cs k).2 = k + cs.length := by
  induction cs generalizing k with
  | nil => simp [pushAll]
  | cons c rest ih =>
    simp only [pushAll, ih, List.length_cons]
    omega

/-- The entries the bucket loop produces for occurrences of `m` carry
exactly the positions of `m` as sequence ids. -/
theorem pushAll_filter_eq (m : Component) (cs : List Component) (k : Nat) :
    (pushAll cs k).1.filter (fun e => e.comp == m) =
      (idsOf m k cs).map (fun p => (⟨m, some p⟩ : SelComp)) := by
  induction cs generalizing k with
  | nil => rfl
  | cons c rest ih =>
    by_cases hc : c = m
    · simp [pushAll, idsOf, hc, List.filter_cons, ih]
    · simp [pushAll, idsOf, hc, List.filter_cons, ih]

/-- Occurrence positions distribute over list append with shifted offset. -/
theorem idsOf_append (m : Component) (l₁ l₂ : List Component) :
    ∀ k, idsOf m k (l₁ ++ l₂) = idsOf m k l₁ ++ idsOf m (k + l₁.length) l₂ := by
  induction l₁ with
  | nil => intro k; simp [idsOf]
  | cons c rest ih =>
    intro k
    rw [List.cons_append]
    by_cases hc : c = m
    · rw [idsOf, if_pos hc, ih (k + 1), idsOf, if_pos hc, List.length_cons,
        List.cons_append]
      congr 3
      omega
    · rw [idsOf, if_neg hc, ih (k + 1), idsOf, if_neg hc, List.length_cons]
      congr 2
      omega

/-- A component that does not occur has no occurrence positions. -/
theorem idsOf_not_mem (m : Component) (l : List Component) (h : m ∉ l) :
    ∀ k, idsOf m k l = [] := by
  induction l with
  | nil => intro k; rfl
  | cons c rest ih =>
    intro k
    have hc : ¬c = m := fun he => h (he ▸ List.mem_cons_self _ _)
    rw [idsOf, if_neg hc]
    exact ih (fun hm => h (List.mem_cons_of_mem _ hm)) (k + 1)

/-- A component occurring exactly once has one occurrence position, inside
the block. -/
theorem idsOf_count_one (m : Component) (l : List Component) (h : l.count m = 1) :
    ∀ k, ∃ p, k ≤ p ∧ p < k + l.length ∧ idsOf m k l = [p] := by
  induction l with
  | nil => simp at h
  | cons c rest ih =>
    intro k
    rw [List.count_cons] at h
    by_cases hc : c = m
    · have hrest : rest.count m = 0 := by
        simp [hc] at h
        omega
      have hnot : m ∉ rest := List.count_eq_zero.mp hrest
      refine ⟨k, Nat.le_refl _, ?_, ?_⟩
      · simp [List.length_cons]
      · rw [idsOf, if_pos hc, idsOf_not_mem m rest hnot]
    · have hrest : rest.count m = 1 := by
        simp [hc] at h
        omega
      obtain ⟨p, hp1, hp2, hp3⟩ := ih hrest (k + 1)
      refine ⟨p, by omega, ?_, ?_⟩
      · simp only [List.length_cons]
        omega
      · rw [idsOf, if_neg hc, hp3]

/-- Finalization filtered to the entries of `m` lists exactly the occurrence
positions of `m` in the expanded selection, as sequence ids. -/
theorem finalizeAux_filter_eq (m : Component) (items : List SelItem) :
    ∀ k, (finalizeAux items k).filter (fun e => e.comp == m) =
      (idsOf m k (items.flatMap expandItem)).map
        (fun p => (⟨m, some p⟩ : SelComp)) := by
  induction items with
  | nil => intro k; rfl
  | cons it rest ih =>
    intro k
    rw [finalizeAux]
    rw [List.filter_append, pushAll_filter_eq, pushAll_snd, ih]
    rw [List.flatMap_cons, idsOf_append, List.map_append]

/-- C7 counterexample: selecting the group {m, n} together with the member m
yields exactly two entries for m, but their sequence ids 0 and 2 are not
consecutive — the other group member's id lies between them. -/
theorem finalize_group_and_member_counterexample :
    (finalizeSelection [SelItem.group [demoM, demoN], SelItem.single demoM]).filter
      (fun e => e.comp == demoM) =
      [(⟨demoM, some 0⟩ : SelComp), ⟨demoM, some 2⟩] ∧
    ¬(2 = 0 + 1) := by
  refine ⟨by decide, by decide⟩

/-- C7 amended: a confirmed selection containing a group choice (whose
bucket holds `m` exactly once) and the individual member `m`, with `m` not
expanded by any other item, finalizes to exactly two entries for `m`, with
distinct sequence ids increasing in output order (consecutive only when no
other component's id falls between them). -/
theorem finalize_group_and_member (pre mid post : List SelItem)
    (bucket : List Component) (m : Component)
    (hcount : bucket.count m = 1)
    (hpre : m ∉ pre.flatMap expandItem) (hmid : m ∉ mid.flatMap expandItem)
    (hpost : m ∉ post.flatMap expandItem) :
    ∃ i j : Nat, i < j ∧
      (finalizeSelection
        (pre ++ SelItem.group bucket :: mid ++ SelItem.single m :: post)).filter
        (fun e => e.comp == m) = [(⟨m, some i⟩ : SelComp), ⟨m, some j⟩] := by
  rw [finalizeSelection, finalizeAux_filter_eq]
  have hflat : (pre ++ SelItem.group bucket :: mid ++
      SelItem.single m :: post).flatMap expandItem =
      pre.flatMap expandItem ++
        (bucket ++ (mid.flatMap expandItem ++ ([m] ++ post.flatMap expandItem))) := by
    simp [List.flatMap_append, List.flatMap_cons, expandItem]
  rw [hflat]
  obtain ⟨p, hp1, hp2, hp3⟩ :=
    idsOf_count_one m bucket hcount (0 + (pre.flatMap expandItem).length)
  have hsingle : ∀ q, idsOf m q ([m] ++ post.flatMap expandItem) =
      q :: idsOf m (q + 1) (post.flatMap expandItem) := by
    intro q
    rw [List.cons_append, List.nil_append, idsOf, if_pos rfl]
  rw [idsOf_append, idsOf_not_mem m _ hpre, idsOf_append, hp3, idsOf_append,
    idsOf_not_mem m _ hmid, hsingle, idsOf_not_mem m _ hpost]
  refine ⟨p, 0 + (pre.flatMap expandItem).length + bucket.length +
    (mid.flatMap expandItem).length, by omega, ?_⟩
  simp

/-- C7 amended witness: group {m} plus the member m itself gives entries
with ids 0 and 1 (here adjacent, hence consecutive). -/
theorem finalize_group_and_member_witness :
    ∃ i j : Nat, i < j ∧
      (finalizeSelection
        ([] ++ SelItem.group [demoM] :: [] ++ SelItem.single demoM :: [])).filter
        (fun e => e.comp == demoM) = [(⟨demoM, some i⟩ : SelComp), ⟨demoM, some j⟩] :=
  finalize_group_and_member [] [] [] [demoM] demoM (by decide) (by decide)
    (by decide) (by decide)

/-- Digit characters round-trip through their code points. -/
theorem charDigit_toNat : ∀ d, d < 10 → (Char.ofNat (d + 48)).toNat = d + 48 := by
  decide

/-- Decoding inverts the decimal rendering whenever the fuel suffices. -/
theorem decodeDec_decDigits : ∀ fuel n, n < fuel →
    decodeDec (decDigits fuel n) = n := by
  intro fuel
  induction fuel with
  | zero => intro n h; omega
  | succ fuel ih =>
    intro n h
    rw [decDigits]
    by_cases h10 : n < 10
    · rw [if_pos h10]
      unfold decodeDec
      simp [charDigit_toNat n h10]
    · rw [if_neg h10]
      have hdiv : n / 10 < fuel := by
        have : n / 10 < n := Nat.div_lt_self (by omega) (by omega)
        omega
      unfold decodeDec
      rw [List.foldl_append]
      have hih := ih (n / 10) hdiv
      unfold decodeDec at hih
      rw [hih]
      simp [charDigit_toNat (n % 10) (Nat.mod_lt _ (by omega))]
      omega

/-- Distinct numbers render to distinct decimal strings. -/
theorem decString_injective (a b : Nat) (h : decString a = decString b) :
    a = b := by
  have hd : decDigits (a + 1) a = decDigits (b + 1) b := congrArg String.data h
  have ha := decodeDec_decDigits (a + 1) a (by omega)
  rw [hd, decodeDec_decDigits (b + 1) b (by omega)] at ha
  omega

/-- Every character of a decimal rendering is a digit. -/
theorem decDigits_digit_range : ∀ fuel n c, c ∈ decDigits fuel n →
    48 ≤ c.toNat ∧ c.toNat ≤ 57 := by
  intro fuel
  induction fuel with
  | zero => intro n c hc; cases hc
  | succ fuel ih =>
    intro n c hc
    rw [decDigits] at hc
    by_cases h10 : n < 10
    · rw [if_pos h10] at hc
      rcases List.mem_singleton.mp hc with rfl
      rw [charDigit_toNat n h10]
      omega
    · rw [if_neg h10] at hc
      rcases List.mem_append.mp hc with h | h
      · exact ih _ _ h
      · rcases List.mem_singleton.mp h with rfl
        rw [charDigit_toNat (n % 10) (Nat.mod_lt _ (by omega))]
        omega

/-- A dot never occurs inside a decimal rendering. -/
theorem dot_not_mem_decDigits (fuel n : Nat) : '.' ∉ decDigits fuel n := by
  intro h
  have hr := decDigits_digit_range fuel n _ h
  have hdot : ('.' : Char).toNat = 46 := rfl
  omega

/-- Lists agreeing up to a distinguished separator absent from both prefixes
have equal prefixes and equal suffixes. -/
theorem append_sep_inj {α : Type} [DecidableEq α] (c : α) :
    ∀ (xs ys rest rest' : List α), c ∉ xs → c ∉ ys →
      xs ++ c :: rest = ys ++ c :: rest' → xs = ys ∧ rest = rest' := by
  intro xs
  induction xs with
  | nil =>
    intro ys rest rest' _ hys h
    cases ys with
    | nil => simpa using h
    | cons y ys =>
      rw [List.nil_append, List.cons_append, List.cons.injEq] at h
      exact absurd (h.1 ▸ List.mem_cons_self y ys) hys
  | cons x xs ih =>
    intro ys rest rest' hxs hys h
    cases ys with
    | nil =>
      rw [List.nil_append, List.cons_append, List.cons.injEq] at h
      exact absurd (h.1.symm ▸ List.mem_cons_self x xs) hxs
    | cons y ys =>
      rw [List.cons_append, List.cons_append, List.cons.injEq] at h
      obtain ⟨e1, e2⟩ := ih ys rest rest'
        (fun hm => hxs (List.mem_cons_of_mem _ hm))
        (fun hm => hys (List.mem_cons_of_mem _ hm)) h.2
      exact ⟨by rw [h.1, e1], e2⟩

/-- Filenames built from the same sanitized title and type but different
sequence ids differ. -/
theorem sanitized_name_ne (s ty : String) (a b : Nat) (hab : a ≠ b) :
    s ++ "-" ++ decString a ++ "." ++ ty ≠ s ++ "-" ++ decString b ++ "." ++ ty := by
  intro h
  apply hab
  have key : ∀ n : Nat, (s ++ "-" ++ decString n ++ "." ++ ty).data =
      (s.data ++ ['-']) ++ (decDigits (n + 1) n ++ '.' :: ty.data) := by
    intro n
    have hminus : ("-" : String).data = ['-'] := rfl
    have hdot : ("." : String).data = ['.'] := rfl
    simp [String.data_append, decString, hminus, hdot, List.append_assoc]
  have hdata := congrArg String.data h
  rw [key a, key b] at hdata
  have hcancel := List.append_cancel_left hdata
  have hsep := append_sep_inj '.' _ _ _ _ (dot_not_mem_decDigits _ _)
    (dot_not_mem_decDigits _ _) hcancel
  exact decString_injective a b (congrArg String.mk hsep.1)

/-- The bucket loop pushes as many entries as the bucket holds. -/
theorem pushAll_length (cs : List Component) (k : Nat) :
    (pushAll cs k).1.length = cs.length := by
  induction cs generalizing k with
  | nil => rfl
  | cons c rest ih => simp [pushAll, ih]

/-- Sequence ids inside one pushed bucket are offset positions. -/
theorem pushAll_getElem_uniqueId (cs : List Component) :
    ∀ k i (h : i < (pushAll cs k).1.length),
      (((pushAll cs k).1)[i]).uniqueId = some (k + i) := by
  induction cs with
  | nil => intro k i h; simp [pushAll] at h
  | cons c rest ih =>
    intro k i h
    cases i with
    | zero => rfl
    | succ i =>
      have h' : i < (pushAll rest (k + 1)).1.length := by
        have hh := h
        simp only [pushAll, List.length_cons] at hh
        omega
      have hih := ih (k + 1) i h'
      have hstep : (((pushAll (c :: rest) k).1)[i + 1]) =
          (((pushAll rest (k + 1)).1)[i]) := rfl
      rw [hstep, hih]
      congr 1
      omega

/-- Sequence ids of a finalized selection are its output positions (shifted
by the starting counter). -/
theorem finalizeAux_getElem_uniqueId (items : List SelItem) :
    ∀ k i (h : i < (finalizeAux items k).length),
      ((finalizeAux items k)[i]).uniqueId = some (k + i) := by
  induction items with
  | nil => intro k i h; simp [finalizeAux] at h
  | cons it rest ih =>
    intro k i h
    have hsplit : finalizeAux (it :: rest) k =
        (pushAll (expandItem it) k).1 ++
          finalizeAux rest (k + (expandItem it).length) := by
      rw [finalizeAux, pushAll_snd]
    have h2 : i < ((pushAll (expandItem it) k).1 ++
        finalizeAux rest (k + (expandItem it).length)).length := hsplit ▸ h
    have hcast : (finalizeAux (it :: rest) k)[i] =
        ((pushAll (expandItem it) k).1 ++
          finalizeAux rest (k + (expandItem it).length))[i] := by
      simp only [hsplit]
    rw [hcast]
    by_cases hlt : i < (pushAll (expandItem it) k).1.length
    · rw [List.getElem_append_left hlt]
      exact pushAll_getElem_uniqueId _ _ _ hlt
    · have hge : (pushAll (expandItem it) k).1.length ≤ i := by omega
      rw [List.getElem_append_right hge]
      have hlen : i - (pushAll (expandItem it) k).1.length <
          (finalizeAux rest (k + (expandItem it).length)).length := by
        have htot := h2
        rw [List.length_append] at htot
        omega
      rw [ih (k + (expandItem it).length) _ hlen]
      rw [pushAll_length] at hge
      rw [pushAll_length]
      congr 1
      omega

/-- Sequence ids of a finalized selection, in `List.get` form. -/
theorem finalizeAux_get_uniqueId (items : List SelItem) (k i : Nat)
    (h : i < (finalizeAux items k).length) :
    ((finalizeAux items k).get ⟨i, h⟩).uniqueId = some (k + i) := by
  rw [List.get_eq_getElem]
  exact finalizeAux_getElem_uniqueId items k i h

/-- Applying two writes with distinct targets leaves each file holding its
own content. -/
theorem applyWrites_pair (w₁ w₂ : String × String) (hne : w₁.1 ≠ w₂.1) :
    applyWrites [w₁, w₂] w₁.1 = some w₁.2 ∧
    applyWrites [w₁, w₂] w₂.1 = some w₂.2 := by
  have h21 : ¬(w₂.1 = w₁.1) := fun h => hne h.symm
  refine ⟨?_, ?_⟩
  · simp [applyWrites, h21]
  · simp [applyWrites, hne]

/-- C8: two finalized selection entries at distinct positions with the same
title and type get distinct separate-mode filenames, and writing both leaves
each file holding its own component's content. -/
theorem separate_filenames_distinct (items : List SelItem) (i j : Nat)
    (hi : i < (finalizeSelection items).length)
    (hj : j < (finalizeSelection items).length) (hij : i ≠ j)
    (htitle : (selEntry items i hi).comp.title = (selEntry items j hj).comp.title)
    (htype : (selEntry items i hi).comp.type = (selEntry items j hj).comp.type) :
    separateFileName (selEntry items i hi) ≠ separateFileName (selEntry items j hj) ∧
    applyWrites
        [(separateFileName (selEntry items i hi), (selEntry items i hi).comp.content),
          (separateFileName (selEntry items j hj), (selEntry items j hj).comp.content)]
        (separateFileName (selEntry items i hi)) =
      some (selEntry items i hi).comp.content ∧
    applyWrites
        [(separateFileName (selEntry items i hi), (selEntry items i hi).comp.content),
          (separateFileName (selEntry items j hj), (selEntry items j hj).comp.content)]
        (separateFileName (selEntry items j hj)) =
      some (selEntry items j hj).comp.content := by
  have hui : (selEntry items i hi).uniqueId = some (0 + i) :=
    finalizeAux_get_uniqueId items 0 i hi
  have huj : (selEntry items j hj).uniqueId = some (0 + j) :=
    finalizeAux_get_uniqueId items 0 j hj
  have hname : ∀ (e : SelComp) (n : Nat), e.uniqueId = some n →
      separateFileName e =
        lowerString (replaceNonAlnum e.comp.title) ++ "-" ++ decString n ++ "." ++
          e.comp.type := by
    intro e n he
    rw [separateFileName, he]
  have hne : separateFileName (selEntry items i hi) ≠
      separateFileName (selEntry items j hj) := by
    rw [hname _ _ hui, hname _ _ huj, htitle, htype]
    exact sanitized_name_ne _ _ _ _ (by omega)
  exact ⟨hne, applyWrites_pair _ _ hne⟩

/-- C8 witness: the same component selected twice (ids 0 and 1) produces two
different filenames and two intact files. -/
theorem separate_filenames_distinct_witness :
    separateFileName (⟨demoM, some 0⟩ : SelComp) ≠ separateFileName ⟨demoM, some 1⟩ ∧
    applyWrites
        [(separateFileName (⟨demoM, some 0⟩ : SelComp), demoM.content),
          (separateFileName (⟨demoM, some 1⟩ : SelComp), demoM.content)]
        (separateFileName (⟨demoM, some 0⟩ : SelComp)) = some demoM.content ∧
    applyWrites
        [(separateFileName (⟨demoM, some 0⟩ : SelComp), demoM.content),
          (separateFileName (⟨demoM, some 1⟩ : SelComp), demoM.content)]
        (separateFileName (⟨demoM, some 1⟩ : SelComp)) = some demoM.content :=
  separate_filenames_distinct [SelItem.single demoM, SelItem.single demoM] 0 1
    (by decide) (by decide) (by decide) rfl rfl

end KodeX
